import Mathlib

/-
Verification of the "easy" tabular EEG decoder (src/easy_reader.rs).

The decoder is embedded shallowly:
* A source file is modelled after CSV tokenization as a list of records,
  each record a list of tab-separated field strings
  (the csv crate with has_headers(false) yields exactly this sequence).
* Rust f64 values are modelled as rationals; the decoder applies only
  parsing, division by the scale, and storage, all exact on the modelled
  fragment (finite decimal/exponent literals; the special literals
  inf/infinity/NaN are outside the model, no claim mentions them).
* A Rust panic (unwrap on None/Err, out-of-bounds index) aborts the whole
  process without returning an error value: it is modelled by the
  DecodeOutcome.fatal constructor, distinct from DecodeOutcome.err, which
  models an anyhow error value returned to the caller.
-/

namespace Easy

/-- Model of the source alias `pub type Float = f64` at the exact fragment
the decoder exercises (parse, divide, store). -/
abbrev Float := ℚ

/-! ### Numeric field parsing (models str::parse in Rust) -/

/-- One decimal digit of a field (models byte-level digit recognition). -/
def digitVal (c : Char) : Option Nat :=
  if c.isDigit then some (c.toNat - 48) else none

/-- Value of a non-empty all-digit run; none on an empty or non-digit run. -/
def digitsVal (cs : List Char) : Option Nat :=
  if cs.isEmpty then none
  else cs.foldlM (fun acc c => (digitVal c).map fun d => 10 * acc + d) 0

/-- Models `str::parse::<u64>` (used for the trailing timestamp field):
an optional leading plus sign, then a non-empty digit run whose value
fits in 64 bits. -/
def parseU64 (s : String) : Option Nat := do
  let cs := match s.toList with
    | '+' :: t => t
    | t => t
  let n ← digitsVal cs
  if n < 2 ^ 64 then some n else none

/-- Optional sign prefix of a numeric literal. -/
def parseSign : List Char → Bool × List Char
  | '+' :: cs => (false, cs)
  | '-' :: cs => (true, cs)
  | cs => (false, cs)

/-- Mantissa of a float literal: `Digits ['.' Digits?] | '.' Digits`. -/
def parseMantissa (cs : List Char) : Option Float :=
  let (ip, rest) := cs.span fun c => c ≠ '.'
  match rest with
  | [] => (digitsVal ip).map fun n => (n : ℚ)
  | _ :: fp =>
    if ip.isEmpty && fp.isEmpty then none
    else do
      let i ← if ip.isEmpty then some 0 else digitsVal ip
      let f ← if fp.isEmpty then some 0 else digitsVal fp
      some ((i : ℚ) + (f : ℚ) / (10 : ℚ) ^ fp.length)

/-- Models `str::parse::<f64>` on the finite-literal fragment:
`[+|-] (Digits ['.' Digits?] | '.' Digits) [(e|E) [+|-] Digits]`. -/
def parseFloat (s : String) : Option Float := do
  let (neg, cs) := parseSign s.toList
  if cs.isEmpty then none
  else
    let (mant, rest) := cs.span fun c => c ≠ 'e' ∧ c ≠ 'E'
    let m ← parseMantissa mant
    let q ← match rest with
      | [] => some m
      | _ :: ex => do
        let (eneg, ed) := parseSign ex
        let e ← digitsVal ed
        some (if eneg then m / (10 : ℚ) ^ e else m * (10 : ℚ) ^ e)
    some (if neg then -q else q)

/-! ### Timestamp handling (models chrono DateTime::from_timestamp + format) -/

/-- The `(timestamp / 1000) as i64` cast: a u64 quantity reinterpreted as
a two's-complement signed 64-bit value. -/
def toI64 (n : Nat) : Int :=
  if n < 2 ^ 63 then (n : Int) else (n : Int) - 2 ^ 64

/-- Days since 1970-01-01 of a proleptic Gregorian civil date
(the standard era-based algorithm chrono's calendar arithmetic follows). -/
def days_from_civil (y : Int) (m d : Nat) : Int :=
  let y := if m ≤ 2 then y - 1 else y
  let era := y.fdiv 400
  let yoe := (y - era * 400).toNat
  let mp : Nat := if 2 < m then m - 3 else m + 9
  let doy := (153 * mp + 2) / 5 + d - 1
  let doe := yoe * 365 + yoe / 4 - yoe / 100 + doy
  era * 146097 + (doe : Int) - 719468

/-- Civil date (year, month, day) of a day count since 1970-01-01. -/
def civil_from_days (z : Int) : Int × Nat × Nat :=
  let z := z + 719468
  let era := z.fdiv 146097
  let doe := (z - era * 146097).toNat
  let yoe := (doe - doe / 1460 + doe / 36524 - doe / 146096) / 365
  let y : Int := (yoe : Int) + era * 400
  let doy := doe - (365 * yoe + yoe / 4 - yoe / 100)
  let mp := (5 * doy + 2) / 153
  let d := doy - (153 * mp + 2) / 5 + 1
  let m := if mp < 10 then mp + 3 else mp - 9
  (if m ≤ 2 then y + 1 else y, m, d)

/-- chrono's earliest representable timestamp in whole seconds
(midnight of January 1, -262143). -/
def chronoMinSecs : Int := days_from_civil (-262143) 1 1 * 86400

/-- chrono's latest representable timestamp in whole seconds
(last second of December 31, 262142). -/
def chronoMaxSecs : Int := days_from_civil 262142 12 31 * 86400 + 86399

/-- Models `DateTime::from_timestamp(secs, 0)`: some iff the second count
is within chrono's representable calendar range. -/
def from_timestamp (secs : Int) : Option Int :=
  if chronoMinSecs ≤ secs ∧ secs ≤ chronoMaxSecs then some secs else none

/-- Zero-pad a number to two digits (chrono numeric field padding). -/
def pad2 (n : Nat) : String :=
  if n < 10 then "0" ++ toString n else toString n

/-- Zero-pad a number to at least four digits. -/
def pad4 (n : Nat) : String :=
  if n < 10 then "000" ++ toString n
  else if n < 100 then "00" ++ toString n
  else if n < 1000 then "0" ++ toString n
  else toString n

/-- chrono's %Y field: four zero-padded digits inside 0..=9999, otherwise
an explicit sign followed by the zero-padded absolute value. -/
def yearString (y : Int) : String :=
  if 0 ≤ y ∧ y ≤ 9999 then pad4 y.toNat
  else if y < 0 then "-" ++ pad4 (-y).toNat
  else "+" ++ pad4 y.toNat

/-- Models formatting a UTC timestamp with "%Y-%m-%d %H:%M:%S". -/
def format_datetime (secs : Int) : String :=
  let days := secs.fdiv 86400
  let sod := (secs - days * 86400).toNat
  let (y, md) := civil_from_days days
  yearString y ++ "-" ++ pad2 md.1 ++ "-" ++ pad2 md.2 ++ " " ++
    pad2 (sod / 3600) ++ ":" ++ pad2 (sod % 3600 / 60) ++ ":" ++ pad2 (sod % 60)

/-! ### Layout inference and record decoding -/

/-- Outcome of a decoding entry point.  `ok` is a normal return, `err` an
anyhow error value returned to the immediate caller, `fatal` a Rust panic
(unwrap on None/Err or an out-of-bounds index), which aborts the process
and returns nothing to the caller. -/
inductive DecodeOutcome (α : Type) where
  | ok : α → DecodeOutcome α
  | err : String → DecodeOutcome α
  | fatal : DecodeOutcome α
deriving DecidableEq, Repr

/-- The dual allow-list of easy_reader.rs (lines 224-230 and 274-280):
13/25/37 columns give columns−5 channels, 10/22/34 give columns−2,
anything else is the columns-mismatch error. -/
def inferNumChannels (numColumns : Nat) : Option Nat :=
  if numColumns = 13 ∨ numColumns = 25 ∨ numColumns = 37 then
    some (numColumns - 5)
  else if numColumns = 10 ∨ numColumns = 22 ∨ numColumns = 34 then
    some (numColumns - 2)
  else none

/-- The message of the anyhow error raised on an unrecognized column count. -/
def columnsMismatchMsg : String := "Number of columns mismatch with expected values."

/-- Models `read_easy_file_for_channels` (easy_reader.rs 210-235):
panics on an empty source, otherwise infers the channel count from the
first record and fabricates electrode names Ch1..Chn. -/
def read_easy_file_for_channels (records : List (List String)) :
    DecodeOutcome (Nat × List String) :=
  match records with
  | [] => .fatal
  | first :: _ =>
    match inferNumChannels first.length with
    | none => .err columnsMismatchMsg
    | some nc => .ok (nc, (List.range nc).map fun i => "Ch" ++ toString (i + 1))

/-- Option-valued collect of parsed fields: models an iterator of
`x.parse().unwrap()` results, where any parse failure panics. -/
def collectParsed (f : String → Option Float) : List String → Option (List Float)
  | [] => some []
  | x :: xs =>
    match f x with
    | none => none
    | some y =>
      match collectParsed f xs with
      | none => none
      | some ys => some (y :: ys)

/-- The per-record body of the decoding loops (easy_reader.rs 303-315 and
413-431): the first num_channels fields are parsed and divided by the
scale, the next up-to-3 fields are parsed as accelerometer axes, and the
field at index num_channels+3 is the marker (indexing out of range or any
parse failure is a panic). -/
def decodeRecord (nc : Nat) (scale : Float) (r : List String) :
    Option (List Float × List Float × Float) :=
  match collectParsed parseFloat (r.take nc) with
  | none => none
  | some eegRaw =>
    let eeg := eegRaw.map fun f => f / scale
    match collectParsed parseFloat ((r.drop nc).take 3) with
    | none => none
    | some acc =>
      match r.get? (nc + 3) with
      | none => none
      | some ms =>
        match parseFloat ms with
        | none => none
        | some marker => some (eeg, acc, marker)

/-- The csv crate (flexible = false) yields an error for any record whose
field count differs from the first record's; the decoder unwraps it, so a
deviating record is a panic. -/
def checkLen (numColumns : Nat) (r : List String) : Option (List String) :=
  if r.length = numColumns then some r else none

/-- One iteration of either decoding loop: the csv length check followed
by the record body. -/
def decodeOne (numColumns nc : Nat) (scale : Float) (r : List String) :
    Option (List Float × List Float × Float) :=
  (checkLen numColumns r).bind (decodeRecord nc scale)

/-- The batch accumulation loop of parse_data (easy_reader.rs 301-320):
three parallel row lists, aborted wholesale by the first panic. -/
def decodeRows (numColumns nc : Nat) (scale : Float) :
    List (List String) → Option (List (List Float) × List (List Float) × List Float)
  | [] => some ([], [], [])
  | r :: rs =>
    match decodeOne numColumns nc scale r with
    | none => none
    | some (e0, a0, m0) =>
      match decodeRows numColumns nc scale rs with
      | none => none
      | some (e, a, m) => some (e0 :: e, a0 :: a, m0 :: m)

/-- Models `Array2::from_shape_vec((n, width), flat).unwrap()`: reshapes a
flat vector into n rows of the stated width. -/
def reshapeRows (width : Nat) : Nat → List Float → List (List Float)
  | 0, _ => []
  | n + 1, flat => flat.take width :: reshapeRows width n (flat.drop width)

/-- Models `Array2::from_shape_vec` including its shape check: succeeds
iff the flattened data has exactly n * width entries. -/
def from_shape_vec (n width : Nat) (flat : List Float) :
    Option (List (List Float)) :=
  if flat.length = n * width then some (reshapeRows width n flat) else none

/-- The fields of EasyReader that parse_data writes. -/
structure ParseResult where
  eegstartdate : Option String
  num_channels : Nat
  np_eeg : List (List Float)
  np_acc : List (List Float)
  np_markers : List Float
deriving DecidableEq, Repr

/-- Models `EasyReader::parse_data` (easy_reader.rs 258-339) over the
tokenized record sequence: unwraps the first record (panic when the
source is empty), infers the layout from its field count, derives the
start date from its last field, decodes every remaining record, and
reshapes the accumulated rows into the stored matrices. -/
def parse_data (records : List (List String)) (scale : Float) :
    DecodeOutcome ParseResult :=
  match records with
  | [] => .fatal
  | first :: rest =>
    match inferNumChannels first.length with
    | none => .err columnsMismatchMsg
    | some nc =>
      match first.getLast? with
      | none => .fatal
      | some lastField =>
        match parseU64 lastField with
        | none => .fatal
        | some ts =>
          let date := (from_timestamp (toI64 (ts / 1000))).map format_datetime
          match decodeRows first.length nc scale rest with
          | none => .fatal
          | some (e, a, m) =>
            match from_shape_vec e.length nc e.flatten, from_shape_vec a.length 3 a.flatten with
            | some eegM, some accM => .ok ⟨date, nc, eegM, accM, m⟩
            | _, _ => .fatal

/-- One consumer-callback argument triple of the streaming mode. -/
structure Chunk where
  eeg : List (List Float)
  acc : List (List Float)
  markers : List Float
deriving DecidableEq, Repr

/-- The streaming loop of `stream` (easy_reader.rs 409-448): pushes each
decoded record onto the three buffers, flushes them to the consumer when
chunk_size ≤ buffered rows, and flushes a final non-empty partial batch
after the records are exhausted.  Returns the list of consumer calls in
order and whether the loop panicked (chunks delivered before a panic stay
delivered). -/
def streamLoop (numColumns nc : Nat) (scale : Float) (cs : Nat)
    (eb ab : List (List Float)) (mb : List Float) :
    List (List String) → List Chunk × Bool
  | [] => if eb.isEmpty then ([], false) else ([⟨eb, ab, mb⟩], false)
  | r :: rs =>
    match decodeOne numColumns nc scale r with
    | none => ([], true)
    | some (e0, a0, m0) =>
      let eb' := eb ++ [e0]
      let ab' := ab ++ [a0]
      let mb' := mb ++ [m0]
      if cs ≤ eb'.length then
        let t := streamLoop numColumns nc scale cs [] [] [] rs
        (⟨eb', ab', mb'⟩ :: t.1, t.2)
      else
        streamLoop numColumns nc scale cs eb' ab' mb' rs

/-- The `chunk_size` defaulting of `stream` (easy_reader.rs 369-372). -/
def chunkSizeOf (chunk_size : Option Nat) : Nat :=
  match chunk_size with
  | some cs => cs
  | none => 1000

/-- Models `EasyReader::stream` (easy_reader.rs 365-451): same prologue as
parse_data, then the chunked loop.  Returns the consumer calls made, and
the outcome (ok carries the eegstartdate the call stored). -/
def stream (chunk_size : Option Nat) (records : List (List String))
    (scale : Float) : List Chunk × DecodeOutcome (Option String) :=
  let cs := chunkSizeOf chunk_size
  match records with
  | [] => ([], .fatal)
  | first :: rest =>
    match inferNumChannels first.length with
    | none => ([], .err columnsMismatchMsg)
    | some nc =>
      match first.getLast? with
      | none => ([], .fatal)
      | some lastField =>
        match parseU64 lastField with
        | none => ([], .fatal)
        | some ts =>
          let date := (from_timestamp (toI64 (ts / 1000))).map format_datetime
          match streamLoop first.length nc scale cs [] [] [] rest with
          | (cks, true) => (cks, .fatal)
          | (cks, false) => (cks, .ok date)

/-! ### Specification-side helpers used to state the claims -/

/-- Canonical chunking of the decoded row lists into flushes of
max cs 1 rows: the closed form of streamLoop on a panic-free source. -/
def chunkify (cs : Nat) : List (List Float) → List (List Float) → List Float → List Chunk
  | [], _, _ => []
  | e :: es, a, m =>
    ⟨(e :: es).take (max cs 1), a.take (max cs 1), m.take (max cs 1)⟩ ::
      chunkify cs ((e :: es).drop (max cs 1)) (a.drop (max cs 1)) (m.drop (max cs 1))
termination_by e => e.length
decreasing_by
  simp only [List.length_drop, List.length_cons]
  omega

/-- The chunk invariant of the spec: every delivered chunk has its three
sequences of one same length, bounded by the stated limit. -/
def chunkInvariant (limit : Nat) (cks : List Chunk) : Prop :=
  ∀ c ∈ cks, c.acc.length = c.eeg.length ∧ c.markers.length = c.eeg.length ∧
    c.eeg.length ≤ limit

instance (limit : Nat) (cks : List Chunk) : Decidable (chunkInvariant limit cks) :=
  List.decidableBAll _ cks

/-! ### Concrete sources used by the scenario-level theorems -/

/-- A 13-column first record (8 EEG, 3 accelerometer, marker, timestamp)
ending in the millisecond timestamp of 2021-01-01 00:00:00 UTC. -/
def first13 : List String :=
  ["1", "2", "3", "4", "5", "6", "7", "8", "9", "10", "11", "0", "1609459200000"]

/-- A 13-column data record with recognizable field values. -/
def row13 : List String :=
  ["10", "20", "30", "40", "50", "60", "70", "80", "1", "2", "3", "5", "1609459201000"]

/-- A 10-column first record (8 EEG, marker, timestamp): the
no-accelerometer family accepted by the allow-list. -/
def first10 : List String :=
  ["1", "2", "3", "4", "5", "6", "7", "8", "0", "1609459200000"]

/-- A 10-column data record for the no-accelerometer family. -/
def row10 : List String :=
  ["10", "20", "30", "40", "50", "60", "70", "80", "9", "1609459201000"]

/-- A 13-column data record whose first EEG field is non-numeric. -/
def badRow13 : List String :=
  ["abc", "20", "30", "40", "50", "60", "70", "80", "1", "2", "3", "5", "1609459201000"]

/-- A 13-column data record whose only non-numeric field is the second
accelerometer axis (index 9). -/
def badAccRow13 : List String :=
  ["10", "20", "30", "40", "50", "60", "70", "80", "1", "x", "3", "5", "1609459201000"]

/-- A 13-column data record whose only non-numeric field is the marker
(index 11). -/
def badMarkerRow13 : List String :=
  ["10", "20", "30", "40", "50", "60", "70", "80", "1", "2", "3", "x", "1609459201000"]

/-- A 13-column first record whose millisecond timestamp is far beyond
chrono's representable calendar range. -/
def first13Far : List String :=
  ["1", "2", "3", "4", "5", "6", "7", "8", "9", "10", "11", "0", "9000000000000000000"]

/-- An 11-column first record: a count outside both allow-list families. -/
def first11 : List String :=
  ["1", "2", "3", "4", "5", "6", "7", "8", "9", "10", "1609459200000"]

/-- The single chunk the streaming decoder delivers for a source holding
row13 as its only data record, at scale 1. -/
def chunkW : Chunk :=
  ⟨[[10, 20, 30, 40, 50, 60, 70, 80]], [[1, 2, 3]], [5]⟩

/-- The batch result for the source [first13, row13] at scale 1. -/
def resultW : ParseResult :=
  ⟨some "2021-01-01 00:00:00", 8, [[10, 20, 30, 40, 50, 60, 70, 80]], [[1, 2, 3]], [5]⟩

end Easy

namespace Easy

theorem infer_cases {nC nc : Nat} (h : inferNumChannels nC = some nc) :
    nC = nc + 5 ∨ nC = nc + 2 := by
  unfold inferNumChannels at h
  split at h
  · rename_i h1
    injection h with h'
    omega
  · split at h
    · rename_i h2
      injection h with h'
      omega
    · exact absurd h (by simp)

theorem collectParsed_length {f : String → Option Float} :
    ∀ {l : List String} {ys : List Float},
      collectParsed f l = some ys → ys.length = l.length := by
  intro l
  induction l with
  | nil => intro ys h; simp [collectParsed] at h; simp [← h]
  | cons x xs ih =>
    intro ys h
    simp only [collectParsed] at h
    cases hf : f x with
    | none => rw [hf] at h; exact absurd h (by simp)
    | some y =>
      rw [hf] at h
      cases hc : collectParsed f xs with
      | none => rw [hc] at h; exact absurd h (by simp)
      | some ys' =>
        rw [hc] at h
        injection h with h'
        subst h'
        simp [ih hc]

theorem collectParsed_none {f : String → Option Float} {x : String} :
    ∀ {l : List String}, x ∈ l → f x = none → collectParsed f l = none := by
  intro l
  induction l with
  | nil => intro h; exact absurd h (by simp)
  | cons y ys ih =>
    intro hmem hf
    simp only [collectParsed]
    rcases List.mem_cons.mp hmem with h | h
    · subst h; rw [hf]
    · cases hfy : f y with
      | none => rfl
      | some v => rw [ih h hf]

end Easy

namespace Easy

theorem decodeRecord_inv {nc : Nat} {s : Float} {r : List String}
    {e0 a0 : List Float} {m0 : Float}
    (h : decodeRecord nc s r = some (e0, a0, m0)) :
    ∃ eegRaw accV ms,
      collectParsed parseFloat (r.take nc) = some eegRaw ∧
      e0 = eegRaw.map (fun f => f / s) ∧
      collectParsed parseFloat ((r.drop nc).take 3) = some accV ∧ a0 = accV ∧
      r.get? (nc + 3) = some ms ∧ parseFloat ms = some m0 := by
  simp only [decodeRecord] at h
  split at h
  · exact absurd h (by simp)
  · rename_i eegRaw h1
    split at h
    · exact absurd h (by simp)
    · rename_i accV h2
      split at h
      · exact absurd h (by simp)
      · rename_i ms h3
        split at h
        · exact absurd h (by simp)
        · rename_i mk h4
          injection h with h'
          simp only [Prod.mk.injEq] at h'
          obtain ⟨he, ha, hm⟩ := h'
          exact ⟨eegRaw, accV, ms, h1, he.symm, h2, ha.symm, h3, by rw [h4, hm]⟩

theorem decodeRecord_shape {nC nc : Nat} {s : Float} {r : List String}
    {e0 a0 : List Float} {m0 : Float}
    (hinf : inferNumChannels nC = some nc) (hlen : r.length = nC)
    (h : decodeRecord nc s r = some (e0, a0, m0)) :
    e0.length = nc ∧ a0.length = 3 := by
  obtain ⟨eegRaw, accV, ms, h1, he, h2, ha, h3, h4⟩ := decodeRecord_inv h
  have hlt : nc + 3 < r.length := (List.get?_eq_some.mp h3).1
  have hfam := infer_cases hinf
  have hN : nC = nc + 5 := by omega
  constructor
  · rw [he, List.length_map, collectParsed_length h1, List.length_take]
    omega
  · rw [ha, collectParsed_length h2, List.length_take, List.length_drop]
    omega

theorem decodeOne_inv {nC nc : Nat} {s : Float} {r : List String}
    {x : List Float × List Float × Float}
    (h : decodeOne nC nc s r = some x) :
    r.length = nC ∧ decodeRecord nc s r = some x := by
  unfold decodeOne checkLen at h
  split at h
  · rename_i hl
    simp only [Option.some_bind] at h
    exact ⟨hl, h⟩
  · exact absurd h (by simp)

theorem decodeOne_of {nC nc : Nat} {s : Float} {r : List String}
    (hl : r.length = nC) :
    decodeOne nC nc s r = decodeRecord nc s r := by
  unfold decodeOne checkLen
  simp [hl]

theorem decodeRows_uniform {nC nc : Nat} {s : Float} :
    ∀ {rs : List (List String)} {e a : List (List Float)} {m : List Float},
      inferNumChannels nC = some nc →
      decodeRows nC nc s rs = some (e, a, m) →
      (∀ r0 ∈ e, r0.length = nc) ∧ (∀ r0 ∈ a, r0.length = 3) ∧
      e.length = rs.length ∧ a.length = e.length ∧ m.length = e.length := by
  intro rs
  induction rs with
  | nil =>
    intro e a m _ h
    simp only [decodeRows] at h
    injection h with h'
    simp only [Prod.mk.injEq] at h'
    obtain ⟨he, ha, hm⟩ := h'
    subst he; subst ha; subst hm
    simp
  | cons r rs ih =>
    intro e a m hinf h
    simp only [decodeRows] at h
    split at h
    · exact absurd h (by simp)
    · rename_i e0 a0 m0 h1
      split at h
      · exact absurd h (by simp)
      · rename_i e' a' m' h2
        injection h with h'
        simp only [Prod.mk.injEq] at h'
        obtain ⟨he, ha, hm⟩ := h'
        subst he; subst ha; subst hm
        obtain ⟨hl, hrec⟩ := decodeOne_inv h1
        obtain ⟨s1, s2⟩ := decodeRecord_shape hinf hl hrec
        obtain ⟨u1, u2, u3, u4, u5⟩ := ih hinf h2
        refine ⟨?_, ?_, by simp [u3], by simp [u4], by simp [u5]⟩
        · intro r0 hr0
          rcases List.mem_cons.mp hr0 with hh | hh
          · rw [hh]; exact s1
          · exact u1 r0 hh
        · intro r0 hr0
          rcases List.mem_cons.mp hr0 with hh | hh
          · rw [hh]; exact s2
          · exact u2 r0 hh

end Easy

namespace Easy

theorem flatten_length_uniform {w : Nat} :
    ∀ {e : List (List Float)}, (∀ r0 ∈ e, r0.length = w) →
      e.flatten.length = e.length * w := by
  intro e
  induction e with
  | nil => intro _; simp
  | cons r0 rest ih =>
    intro hu
    have h0 : r0.length = w := hu r0 (by simp)
    have hr : ∀ x ∈ rest, x.length = w := fun x hx => hu x (by simp [hx])
    simp [ih hr, h0]
    ring

theorem reshapeRows_flatten {w : Nat} :
    ∀ {e : List (List Float)}, (∀ r0 ∈ e, r0.length = w) →
      reshapeRows w e.length e.flatten = e := by
  intro e
  induction e with
  | nil => intro _; simp [reshapeRows]
  | cons r0 rest ih =>
    intro hu
    have h0 : r0.length = w := hu r0 (by simp)
    have hr : ∀ x ∈ rest, x.length = w := fun x hx => hu x (by simp [hx])
    simp only [List.length_cons, List.flatten_cons, reshapeRows]
    rw [List.take_left' h0, List.drop_left' h0, ih hr]

theorem from_shape_vec_flatten {w : Nat} {e : List (List Float)}
    (hu : ∀ r0 ∈ e, r0.length = w) :
    from_shape_vec e.length w e.flatten = some e := by
  unfold from_shape_vec
  rw [if_pos (flatten_length_uniform hu), reshapeRows_flatten hu]

theorem parse_data_eq_ok {first : List String} {rest : List (List String)}
    {scale : Float} {nc ts : Nat} {lastF : String}
    {e a : List (List Float)} {m : List Float}
    (hinf : inferNumChannels first.length = some nc)
    (hlast : first.getLast? = some lastF)
    (hts : parseU64 lastF = some ts)
    (hrows : decodeRows first.length nc scale rest = some (e, a, m)) :
    parse_data (first :: rest) scale =
      .ok ⟨(from_timestamp (toI64 (ts / 1000))).map format_datetime, nc, e, a, m⟩ := by
  obtain ⟨u1, u2, _, u4, _⟩ := decodeRows_uniform hinf hrows
  have he : from_shape_vec e.length nc e.flatten = some e := from_shape_vec_flatten u1
  have ha : from_shape_vec a.length 3 a.flatten = some a := from_shape_vec_flatten u2
  simp only [parse_data, hinf, hlast, hts, hrows, he, ha]

theorem parse_data_ok_inv {records : List (List String)} {scale : Float}
    {r : ParseResult} (h : parse_data records scale = .ok r) :
    ∃ first rest nc lastF ts e a m,
      records = first :: rest ∧
      inferNumChannels first.length = some nc ∧
      first.getLast? = some lastF ∧
      parseU64 lastF = some ts ∧
      decodeRows first.length nc scale rest = some (e, a, m) ∧
      r = ⟨(from_timestamp (toI64 (ts / 1000))).map format_datetime, nc, e, a, m⟩ := by
  match records with
  | [] => exact absurd h (by simp [parse_data])
  | first :: rest =>
    simp only [parse_data] at h
    split at h
    · exact absurd h (by simp)
    · rename_i nc hinf
      split at h
      · exact absurd h (by simp)
      · rename_i lastF hlast
        split at h
        · exact absurd h (by simp)
        · rename_i ts hts
          split at h
          · exact absurd h (by simp)
          · rename_i e a m hrows
            split at h
            · rename_i eegM accM hse hsa
              injection h with h'
              obtain ⟨u1, u2, _, _, _⟩ := decodeRows_uniform hinf hrows
              have he := from_shape_vec_flatten u1 (e := e)
              have ha := from_shape_vec_flatten u2 (e := a)
              rw [hse] at he
              rw [hsa] at ha
              injection he with he'
              injection ha with ha'
              refine ⟨first, rest, nc, lastF, ts, e, a, m, rfl, hinf, hlast, hts, hrows, ?_⟩
              rw [← h', he', ha']
            · exact absurd h (by simp)

end Easy

namespace Easy

theorem chunkify_nil {cs : Nat} {a : List (List Float)} {m : List Float} :
    chunkify cs [] a m = [] := by
  simp [chunkify]

theorem chunkify_cons' {cs : Nat} {e : List (List Float)}
    {a : List (List Float)} {m : List Float} (h : e ≠ []) :
    chunkify cs e a m =
      ⟨e.take (max cs 1), a.take (max cs 1), m.take (max cs 1)⟩ ::
        chunkify cs (e.drop (max cs 1)) (a.drop (max cs 1)) (m.drop (max cs 1)) := by
  match e with
  | [] => exact absurd rfl h
  | x :: xs => rw [chunkify]

theorem chunkify_single {cs : Nat} {e a : List (List Float)} {m : List Float}
    (hne : e ≠ []) (hlen : e.length ≤ max cs 1)
    (hal : a.length = e.length) (hml : m.length = e.length) :
    chunkify cs e a m = [⟨e, a, m⟩] := by
  rw [chunkify_cons' hne, List.take_of_length_le hlen,
    List.take_of_length_le (by omega), List.take_of_length_le (by omega),
    List.drop_eq_nil_of_le hlen, List.drop_eq_nil_of_le (by omega),
    List.drop_eq_nil_of_le (by omega), chunkify_nil]

theorem chunkify_flush {cs : Nat} {e1 e2 a1 a2 : List (List Float)}
    {m1 m2 : List Float}
    (he : e1.length = max cs 1) (ha : a1.length = max cs 1)
    (hm : m1.length = max cs 1) :
    chunkify cs (e1 ++ e2) (a1 ++ a2) (m1 ++ m2) =
      ⟨e1, a1, m1⟩ :: chunkify cs e2 a2 m2 := by
  have hne : e1 ++ e2 ≠ [] := by
    intro hcon
    have : e1 = [] := by
      cases e1 with
      | nil => rfl
      | cons x xs => simp at hcon
    rw [this] at he
    simp at he
    omega
  rw [chunkify_cons' hne, List.take_left' he, List.take_left' ha,
    List.take_left' hm, List.drop_left' he, List.drop_left' ha,
    List.drop_left' hm]

theorem streamLoop_eq_chunkify {numColumns nc : Nat} {s : Float} (cs : Nat) :
    ∀ {rs : List (List String)} (eb ab : List (List Float)) (mb : List Float)
      {e a : List (List Float)} {m : List Float},
      decodeRows numColumns nc s rs = some (e, a, m) →
      ab.length = eb.length → mb.length = eb.length → eb.length < max cs 1 →
      streamLoop numColumns nc s cs eb ab mb rs =
        (chunkify cs (eb ++ e) (ab ++ a) (mb ++ m), false) := by
  intro rs
  induction rs with
  | nil =>
    intro eb ab mb e a m h hal hml hlt
    simp only [decodeRows] at h
    injection h with h'
    simp only [Prod.mk.injEq] at h'
    obtain ⟨he, ha, hm⟩ := h'
    subst he; subst ha; subst hm
    simp only [List.append_nil, streamLoop]
    by_cases he : eb.isEmpty
    · rw [if_pos he]
      have h1 : eb = [] := List.isEmpty_iff.mp he
      have h2 : ab = [] := List.eq_nil_of_length_eq_zero (by rw [hal, h1]; rfl)
      have h3 : mb = [] := List.eq_nil_of_length_eq_zero (by rw [hml, h1]; rfl)
      rw [h1, h2, h3, chunkify_nil]
    · rw [if_neg he]
      have h1 : eb ≠ [] := fun hcon => he (by rw [hcon]; rfl)
      rw [chunkify_single h1 (by omega) hal hml]
  | cons r rs ih =>
    intro eb ab mb e a m h hal hml hlt
    simp only [decodeRows] at h
    split at h
    · exact absurd h (by simp)
    · rename_i e0 a0 m0 h1
      split at h
      · exact absurd h (by simp)
      · rename_i es as' ms' h2
        injection h with h'
        simp only [Prod.mk.injEq] at h'
        obtain ⟨he, ha, hm⟩ := h'
        subst he; subst ha; subst hm
        simp only [streamLoop, h1]
        by_cases hfl : cs ≤ (eb ++ [e0]).length
        · rw [if_pos hfl]
          simp only [List.length_append, List.length_cons, List.length_nil] at hfl
          rw [List.append_cons eb e0 es, List.append_cons ab a0 as',
            List.append_cons mb m0 ms']
          rw [chunkify_flush
            (by simp only [List.length_append, List.length_cons, List.length_nil]; omega)
            (by simp only [List.length_append, List.length_cons, List.length_nil, hal]; omega)
            (by simp only [List.length_append, List.length_cons, List.length_nil, hml]; omega)]
          have hrec := ih [] [] [] h2 rfl rfl
            (by simp only [List.length_nil]; omega)
          simp only [List.nil_append] at hrec
          rw [hrec]
        · rw [if_neg hfl]
          simp only [List.length_append, List.length_cons, List.length_nil] at hfl
          have hrec := ih (eb ++ [e0]) (ab ++ [a0]) (mb ++ [m0]) h2
            (by simp only [List.length_append, List.length_cons, List.length_nil, hal])
            (by simp only [List.length_append, List.length_cons, List.length_nil, hml])
            (by simp only [List.length_append, List.length_cons, List.length_nil]; omega)
          rw [hrec]
          rw [List.append_cons eb e0 es, List.append_cons ab a0 as',
            List.append_cons mb m0 ms']

theorem streamLoop_fatal {numColumns nc : Nat} {s : Float} (cs : Nat) :
    ∀ {rs : List (List String)} (eb ab : List (List Float)) (mb : List Float),
      decodeRows numColumns nc s rs = none →
      (streamLoop numColumns nc s cs eb ab mb rs).2 = true := by
  intro rs
  induction rs with
  | nil => intro eb ab mb h; exact absurd h (by simp [decodeRows])
  | cons r rs ih =>
    intro eb ab mb h
    simp only [decodeRows] at h
    simp only [streamLoop]
    split
    · rfl
    · rename_i e0 a0 m0 h1
      rw [h1] at h
      have h2 : decodeRows numColumns nc s rs = none := by
        cases h3 : decodeRows numColumns nc s rs with
        | none => rfl
        | some y => rw [h3] at h; obtain ⟨ey, ay, my⟩ := y; exact absurd h (by simp)
      by_cases hfl : cs ≤ (eb ++ [e0]).length
      · rw [if_pos hfl]; exact ih [] [] [] h2
      · rw [if_neg hfl]; exact ih (eb ++ [e0]) (ab ++ [a0]) (mb ++ [m0]) h2

theorem streamLoop_sizes (numColumns nc : Nat) (s : Float) (cs : Nat) :
    ∀ (rs : List (List String)) (eb ab : List (List Float)) (mb : List Float),
      ab.length = eb.length → mb.length = eb.length → eb.length < max cs 1 →
      ∀ c ∈ (streamLoop numColumns nc s cs eb ab mb rs).1,
        c.acc.length = c.eeg.length ∧ c.markers.length = c.eeg.length ∧
        c.eeg.length ≤ max cs 1 := by
  intro rs
  induction rs with
  | nil =>
    intro eb ab mb hal hml hlt c hc
    simp only [streamLoop] at hc
    split at hc
    · simp at hc
    · simp only [List.mem_singleton] at hc
      subst hc
      exact ⟨hal, hml, Nat.le_of_lt hlt⟩
  | cons r rs ih =>
    intro eb ab mb hal hml hlt c hc
    simp only [streamLoop] at hc
    split at hc
    · simp at hc
    · rename_i e0 a0 m0 h1
      by_cases hfl : cs ≤ (eb ++ [e0]).length
      · rw [if_pos hfl] at hc
        simp only [List.length_append, List.length_cons, List.length_nil] at hfl
        rcases List.mem_cons.mp hc with hh | hh
        · subst hh
          refine ⟨?_, ?_, ?_⟩
          · show (ab ++ [a0]).length = (eb ++ [e0]).length
            simp only [List.length_append, List.length_cons, List.length_nil, hal]
          · show (mb ++ [m0]).length = (eb ++ [e0]).length
            simp only [List.length_append, List.length_cons, List.length_nil, hml]
          · show (eb ++ [e0]).length ≤ max cs 1
            simp only [List.length_append, List.length_cons, List.length_nil]
            omega
        · exact ih [] [] [] rfl rfl
            (by simp only [List.length_nil]; omega) c hh
      · rw [if_neg hfl] at hc
        simp only [List.length_append, List.length_cons, List.length_nil] at hfl
        exact ih (eb ++ [e0]) (ab ++ [a0]) (mb ++ [m0])
          (by simp only [List.length_append, List.length_cons, List.length_nil, hal])
          (by simp only [List.length_append, List.length_cons, List.length_nil, hml])
          (by simp only [List.length_append, List.length_cons, List.length_nil]; omega) c hc

end Easy

namespace Easy

theorem stream_eq_ok (cso : Option Nat) {first : List String}
    {rest : List (List String)}
    {scale : Float} {nc ts : Nat} {lastF : String}
    {e a : List (List Float)} {m : List Float}
    (hinf : inferNumChannels first.length = some nc)
    (hlast : first.getLast? = some lastF)
    (hts : parseU64 lastF = some ts)
    (hrows : decodeRows first.length nc scale rest = some (e, a, m)) :
    stream cso (first :: rest) scale =
      (chunkify (chunkSizeOf cso) e a m,
        .ok ((from_timestamp (toI64 (ts / 1000))).map format_datetime)) := by
  have hsl := streamLoop_eq_chunkify (chunkSizeOf cso) [] [] [] hrows rfl rfl
    (by simp only [List.length_nil]; omega)
  simp only [List.nil_append] at hsl
  simp only [stream, hinf, hlast, hts, hsl]

theorem stream_ok_inv {cso : Option Nat} {records : List (List String)}
    {scale : Float} {cks : List Chunk} {d : Option String}
    (h : stream cso records scale = (cks, .ok d)) :
    ∃ first rest nc lastF ts e a m,
      records = first :: rest ∧
      inferNumChannels first.length = some nc ∧
      first.getLast? = some lastF ∧
      parseU64 lastF = some ts ∧
      decodeRows first.length nc scale rest = some (e, a, m) ∧
      d = (from_timestamp (toI64 (ts / 1000))).map format_datetime ∧
      cks = chunkify (chunkSizeOf cso) e a m := by
  match records with
  | [] =>
    exact absurd (congrArg Prod.snd h) (by simp [stream])
  | first :: rest =>
    simp only [stream] at h
    split at h
    · exact absurd (congrArg Prod.snd h) (by simp)
    · rename_i nc hinf
      split at h
      · exact absurd (congrArg Prod.snd h) (by simp)
      · rename_i lastF hlast
        split at h
        · exact absurd (congrArg Prod.snd h) (by simp)
        · rename_i ts hts
          split at h
          · exact absurd (congrArg Prod.snd h) (by simp)
          · rename_i cks' hloop
            have hrows : decodeRows first.length nc scale rest ≠ none := by
              intro hn
              have := streamLoop_fatal (chunkSizeOf cso) [] [] [] hn
              rw [hloop] at this
              exact absurd this (by simp)
            cases hrs : decodeRows first.length nc scale rest with
            | none => exact absurd hrs hrows
            | some y =>
              obtain ⟨e, a, m⟩ := y
              have hsl := streamLoop_eq_chunkify (chunkSizeOf cso) [] [] [] hrs rfl rfl
                (by simp only [List.length_nil]; omega)
              simp only [List.nil_append] at hsl
              rw [hsl] at hloop
              injection hloop with hc hb
              refine ⟨first, rest, nc, lastF, ts, e, a, m, rfl, hinf, hlast, hts, hrs, ?_, ?_⟩
              · have hsnd := congrArg Prod.snd h
                simp only at hsnd
                injection hsnd with hd
                exact hd.symm
              · have hfst := congrArg Prod.fst h
                simp only at hfst
                rw [← hfst, ← hc]

end Easy

namespace Easy

theorem parse_data_fatal {first : List String} {rest : List (List String)}
    {scale : Float} {nc : Nat}
    (hinf : inferNumChannels first.length = some nc)
    (hn : decodeRows first.length nc scale rest = none) :
    parse_data (first :: rest) scale = .fatal := by
  simp only [parse_data, hinf, hn]
  split
  · rfl
  · split <;> rfl

theorem stream_fatal {cso : Option Nat} {first : List String}
    {rest : List (List String)} {scale : Float} {nc : Nat}
    (hinf : inferNumChannels first.length = some nc)
    (hn : decodeRows first.length nc scale rest = none) :
    (stream cso (first :: rest) scale).2 = .fatal := by
  have h2 := streamLoop_fatal (chunkSizeOf cso) [] [] [] hn
  simp only [stream, hinf]
  cases hsl : streamLoop first.length nc scale (chunkSizeOf cso) [] [] [] rest with
  | mk cks b =>
    rw [hsl] at h2
    simp only at h2
    subst h2
    split
    · rfl
    · split <;> rfl

theorem decodeRows_append_none {numColumns nc : Nat} {s : Float} :
    ∀ {pre l : List (List String)} {pe pa : List (List Float)} {pm : List Float},
      decodeRows numColumns nc s pre = some (pe, pa, pm) →
      decodeRows numColumns nc s l = none →
      decodeRows numColumns nc s (pre ++ l) = none := by
  intro pre
  induction pre with
  | nil => intro l pe pa pm _ hl; simpa using hl
  | cons r rs ih =>
    intro l pe pa pm h hl
    simp only [decodeRows] at h
    split at h
    · exact absurd h (by simp)
    · rename_i e0 a0 m0 h1
      split at h
      · exact absurd h (by simp)
      · rename_i es as' ms' h2
        have h3 := ih h2 hl
        simp only [List.cons_append, decodeRows, List.append_eq, h1, h3]

theorem decodeRecord_none_of_badField {nc i : Nat} {scale : Float}
    {r : List String} {s0 : String}
    (hi : i < nc + 4) (hget : r.get? i = some s0) (hbad : parseFloat s0 = none) :
    decodeRecord nc scale r = none := by
  by_cases h1 : i < nc
  · have hmem : s0 ∈ r.take nc := by
      have e1 : (r.take nc).get? i = r.get? i := by
        rw [List.get?_eq_getElem?, List.get?_eq_getElem?, List.getElem?_take_of_lt h1]
      rw [hget] at e1
      exact List.get?_mem e1
    have hcp : collectParsed parseFloat (r.take nc) = none :=
      collectParsed_none hmem hbad
    simp only [decodeRecord, hcp]
  · by_cases h2 : i < nc + 3
    · have hmem : s0 ∈ (r.drop nc).take 3 := by
        have e1 : ((r.drop nc).take 3).get? (i - nc) = (r.drop nc).get? (i - nc) := by
          rw [List.get?_eq_getElem?, List.get?_eq_getElem?,
            List.getElem?_take_of_lt (by omega)]
        have e2 : (r.drop nc).get? (i - nc) = r.get? (nc + (i - nc)) := by
          rw [List.get?_eq_getElem?, List.get?_eq_getElem?, List.getElem?_drop]
        have e3 : nc + (i - nc) = i := by omega
        rw [e2, e3, hget] at e1
        exact List.get?_mem e1
      have hcp : collectParsed parseFloat ((r.drop nc).take 3) = none :=
        collectParsed_none hmem hbad
      simp only [decodeRecord, hcp]
      cases collectParsed parseFloat (r.take nc) with
      | none => rfl
      | some eegRaw => rfl
    · have hieq : i = nc + 3 := by omega
      have hg : r.get? (nc + 3) = some s0 := by rw [← hieq]; exact hget
      simp only [decodeRecord, hg, hbad]
      cases collectParsed parseFloat (r.take nc) with
      | none => rfl
      | some eegRaw =>
        cases collectParsed parseFloat ((r.drop nc).take 3) with
        | none => rfl
        | some accV => rfl

theorem decodeRecord_scale {nc : Nat} {r : List String} {s1 s2 : Float} :
    (decodeRecord nc s1 r).map (fun x => (x.2.1, x.2.2)) =
    (decodeRecord nc s2 r).map (fun x => (x.2.1, x.2.2)) := by
  simp only [decodeRecord]
  cases h1 : collectParsed parseFloat (r.take nc) with
  | none => rfl
  | some eegRaw =>
    cases h2 : collectParsed parseFloat ((r.drop nc).take 3) with
    | none => rfl
    | some accV =>
      cases h3 : r.get? (nc + 3) with
      | none => rfl
      | some ms =>
        cases h4 : parseFloat ms with
        | none => simp only [h4]
        | some mk => simp only [h4, Option.map_some']

theorem decodeOne_scale (numColumns nc : Nat) (s1 s2 : Float) (r : List String) :
    (decodeOne numColumns nc s1 r).map (fun x => (x.2.1, x.2.2)) =
    (decodeOne numColumns nc s2 r).map (fun x => (x.2.1, x.2.2)) := by
  unfold decodeOne checkLen
  split
  · simp only [Option.some_bind]
    exact decodeRecord_scale
  · rfl

theorem decodeRows_scale (numColumns nc : Nat) (s1 s2 : Float) :
    ∀ (rs : List (List String)),
      (decodeRows numColumns nc s1 rs).map (fun x => (x.2.1, x.2.2)) =
      (decodeRows numColumns nc s2 rs).map (fun x => (x.2.1, x.2.2)) := by
  intro rs
  induction rs with
  | nil => rfl
  | cons r rs ih =>
    simp only [decodeRows]
    have hone := decodeOne_scale numColumns nc s1 s2 r
    cases h1 : decodeOne numColumns nc s1 r with
    | none =>
      rw [h1] at hone
      have h2 : decodeOne numColumns nc s2 r = none :=
        Option.map_eq_none'.mp hone.symm
      rw [h2]
    | some x1 =>
      rw [h1] at hone
      obtain ⟨x2, h2, hp⟩ := Option.map_eq_some'.mp hone.symm
      rw [h2]
      obtain ⟨e1, a1, m1⟩ := x1
      obtain ⟨e2, a2, m2⟩ := x2
      simp only [Prod.mk.injEq] at hp
      obtain ⟨hpa, hpm⟩ := hp
      cases hr1 : decodeRows numColumns nc s1 rs with
      | none =>
        rw [hr1] at ih
        have hr2 : decodeRows numColumns nc s2 rs = none :=
          Option.map_eq_none'.mp ih.symm
        rw [hr2]
      | some y1 =>
        rw [hr1] at ih
        obtain ⟨y2, hy2, hyp⟩ := Option.map_eq_some'.mp ih.symm
        rw [hy2]
        obtain ⟨es1, as1, ms1⟩ := y1
        obtain ⟨es2, as2, ms2⟩ := y2
        simp only [Prod.mk.injEq] at hyp
        obtain ⟨hya, hym⟩ := hyp
        simp only [Option.map_some', Prod.mk.injEq]
        rw [hpa, hpm, hya, hym]

end Easy

namespace Easy

theorem chunkify_length {cs : Nat} (e a : List (List Float)) (m : List Float) :
    (chunkify cs e a m).length = (e.length + max cs 1 - 1) / max cs 1 := by
  induction e, a, m using chunkify.induct cs with
  | case1 a m =>
    simp only [chunkify, List.length_nil]
    exact (Nat.div_eq_of_lt (by omega)).symm
  | case2 x xs a m ih =>
    rw [chunkify]
    simp only [List.length_cons, List.length_drop] at ih ⊢
    rw [ih]
    by_cases hle : xs.length + 1 ≤ max cs 1
    · have h1 : xs.length + 1 - max cs 1 = 0 := by omega
      rw [h1]
      have h2 : (0 + max cs 1 - 1) / max cs 1 = 0 := Nat.div_eq_of_lt (by omega)
      rw [h2]
      exact (Nat.div_eq_of_lt_le (by omega) (by omega)).symm
    · have e1 : xs.length + 1 - max cs 1 + max cs 1 - 1 = xs.length := by omega
      rw [e1]
      have e2 : xs.length + 1 + max cs 1 - 1 = xs.length + max cs 1 := by omega
      rw [e2, Nat.add_div_right _ (by omega)]

theorem chunkify_flatten_eeg {cs : Nat} (e a : List (List Float)) (m : List Float) :
    ((chunkify cs e a m).map Chunk.eeg).flatten = e := by
  induction e, a, m using chunkify.induct cs with
  | case1 a m => simp [chunkify]
  | case2 x xs a m ih =>
    rw [chunkify]
    simp only [List.map_cons, List.flatten_cons, ih]
    exact List.take_append_drop _ _

theorem chunkify_flatten_acc {cs : Nat} (e a : List (List Float)) (m : List Float) :
    a.length = e.length → ((chunkify cs e a m).map Chunk.acc).flatten = a := by
  induction e, a, m using chunkify.induct cs with
  | case1 a m =>
    intro h
    simp only [List.length_nil] at h
    rw [List.eq_nil_of_length_eq_zero h]
    simp [chunkify]
  | case2 x xs a m ih =>
    intro h
    rw [chunkify]
    simp only [List.map_cons, List.flatten_cons]
    rw [ih (by simp only [List.length_drop, h])]
    exact List.take_append_drop _ _

theorem chunkify_flatten_markers {cs : Nat} (e a : List (List Float)) (m : List Float) :
    m.length = e.length → ((chunkify cs e a m).map Chunk.markers).flatten = m := by
  induction e, a, m using chunkify.induct cs with
  | case1 a m =>
    intro h
    simp only [List.length_nil] at h
    rw [List.eq_nil_of_length_eq_zero h]
    simp [chunkify]
  | case2 x xs a m ih =>
    intro h
    rw [chunkify]
    simp only [List.map_cons, List.flatten_cons]
    rw [ih (by simp only [List.length_drop, h])]
    exact List.take_append_drop _ _

theorem chunkify_eq_nil_iff {cs : Nat} {e a : List (List Float)} {m : List Float} :
    chunkify cs e a m = [] ↔ e = [] := by
  cases e with
  | nil => simp [chunkify]
  | cons x xs => simp [chunkify]

theorem chunkify_mem_pos {cs : Nat} (e a : List (List Float)) (m : List Float) :
    ∀ c ∈ chunkify cs e a m, 1 ≤ c.eeg.length := by
  induction e, a, m using chunkify.induct cs with
  | case1 a m => simp [chunkify]
  | case2 x xs a m ih =>
    intro c hc
    rw [chunkify] at hc
    rcases List.mem_cons.mp hc with hh | hh
    · subst hh
      simp only [List.length_take, List.length_cons]
      omega
    · exact ih c hh

theorem chunkify_dropLast_full {cs : Nat} (e a : List (List Float)) (m : List Float) :
    a.length = e.length → m.length = e.length →
    ∀ c ∈ (chunkify cs e a m).dropLast,
      c.eeg.length = max cs 1 ∧ c.acc.length = max cs 1 ∧
      c.markers.length = max cs 1 := by
  induction e, a, m using chunkify.induct cs with
  | case1 a m => intro _ _; simp [chunkify]
  | case2 x xs a m ih =>
    intro hal hml c hc
    rw [chunkify] at hc
    by_cases hrest : (x :: xs).drop (max cs 1) = []
    · rw [hrest] at hc
      rw [chunkify_eq_nil_iff.mpr rfl] at hc
      simp at hc
    · have hne : chunkify cs ((x :: xs).drop (max cs 1)) (a.drop (max cs 1))
          (m.drop (max cs 1)) ≠ [] := fun hb => hrest (chunkify_eq_nil_iff.mp hb)
      rw [List.dropLast_cons_of_ne_nil hne] at hc
      have hlong : max cs 1 < (x :: xs).length := by
        simp only [List.drop_eq_nil_iff, not_le] at hrest
        exact hrest
      rcases List.mem_cons.mp hc with hh | hh
      · subst hh
        refine ⟨?_, ?_, ?_⟩
        · simp only [List.length_take]
          omega
        · simp only [List.length_take, hal]
          omega
        · simp only [List.length_take, hml]
          omega
      · exact ih (by simp only [List.length_drop, hal]) (by simp only [List.length_drop, hml]) c hh

theorem streamLoop_zero_one {numColumns nc : Nat} {s : Float} :
    ∀ (rs : List (List String)) (eb ab : List (List Float)) (mb : List Float),
      streamLoop numColumns nc s 0 eb ab mb rs = streamLoop numColumns nc s 1 eb ab mb rs := by
  intro rs
  induction rs with
  | nil => intro eb ab mb; rfl
  | cons r rs ih =>
    intro eb ab mb
    simp only [streamLoop]
    cases h1 : decodeOne numColumns nc s r with
    | none => rfl
    | some x =>
      obtain ⟨e0, a0, m0⟩ := x
      have hif1 : 1 ≤ (eb ++ [e0]).length := by
        simp only [List.length_append, List.length_cons, List.length_nil]
        omega
      simp only [if_pos (Nat.zero_le ((eb ++ [e0]).length)), if_pos hif1, ih]

end Easy

namespace Easy

theorem streamLoop_scale (numColumns nc : Nat) (s1 s2 : Float) (cs : Nat) :
    ∀ (rs : List (List String)) (eb1 eb2 ab : List (List Float)) (mb : List Float),
      eb1.length = eb2.length →
      ((streamLoop numColumns nc s1 cs eb1 ab mb rs).1.map fun c => (c.acc, c.markers)) =
        ((streamLoop numColumns nc s2 cs eb2 ab mb rs).1.map fun c => (c.acc, c.markers)) ∧
      (streamLoop numColumns nc s1 cs eb1 ab mb rs).2 =
        (streamLoop numColumns nc s2 cs eb2 ab mb rs).2 := by
  intro rs
  induction rs with
  | nil =>
    intro eb1 eb2 ab mb h
    simp only [streamLoop]
    by_cases he : eb1.isEmpty
    · have he2 : eb2.isEmpty := by
        rw [List.isEmpty_iff] at he ⊢
        exact List.eq_nil_of_length_eq_zero (by rw [← h, he]; rfl)
      rw [if_pos he, if_pos he2]
      exact ⟨rfl, rfl⟩
    · have he2 : ¬ eb2.isEmpty := by
        rw [List.isEmpty_iff] at he ⊢
        intro hcon
        exact he (List.eq_nil_of_length_eq_zero (by rw [h, hcon]; rfl))
      rw [if_neg he, if_neg he2]
      exact ⟨rfl, rfl⟩
  | cons r rs ih =>
    intro eb1 eb2 ab mb h
    have hone := decodeOne_scale numColumns nc s1 s2 r
    cases h1 : decodeOne numColumns nc s1 r with
    | none =>
      have h2 : decodeOne numColumns nc s2 r = none := by
        rw [h1] at hone
        exact Option.map_eq_none'.mp hone.symm
      simp only [streamLoop, h1, h2]
      exact ⟨by trivial, by trivial⟩
    | some x1 =>
      rw [h1] at hone
      obtain ⟨x2, h2, hp⟩ := Option.map_eq_some'.mp hone.symm
      obtain ⟨e01, a01, m01⟩ := x1
      obtain ⟨e02, a02, m02⟩ := x2
      simp only [Prod.mk.injEq] at hp
      obtain ⟨hpa, hpm⟩ := hp
      subst hpa
      subst hpm
      simp only [streamLoop, h1, h2]
      have hlen : (eb1 ++ [e01]).length = (eb2 ++ [e02]).length := by
        simp only [List.length_append, List.length_cons, List.length_nil, h]
      by_cases hfl : cs ≤ (eb1 ++ [e01]).length
      · rw [if_pos hfl, if_pos (hlen ▸ hfl)]
        obtain ⟨ih1, ih2⟩ := ih [] [] [] [] rfl
        constructor
        · simp only [List.map_cons, ih1]
        · exact ih2
      · rw [if_neg hfl, if_neg (by rw [← hlen]; exact hfl)]
        exact ih (eb1 ++ [e01]) (eb2 ++ [e02]) (ab ++ [a02]) (mb ++ [m02])
          (by simp only [List.length_append, List.length_cons, List.length_nil, h])

theorem stream_scale {cso : Option Nat} {records : List (List String)}
    {s1 s2 : Float} :
    ((stream cso records s1).1.map fun c => (c.acc, c.markers)) =
      ((stream cso records s2).1.map fun c => (c.acc, c.markers)) ∧
    (stream cso records s1).2 = (stream cso records s2).2 := by
  cases records with
  | nil => exact ⟨rfl, rfl⟩
  | cons first rest =>
    cases hinf : inferNumChannels first.length with
    | none => simp only [stream, hinf]; exact ⟨by trivial, by trivial⟩
    | some nc =>
      cases hl : first.getLast? with
      | none => simp only [stream, hinf, hl]; exact ⟨by trivial, by trivial⟩
      | some lastF =>
        cases ht : parseU64 lastF with
        | none => simp only [stream, hinf, hl, ht]; exact ⟨by trivial, by trivial⟩
        | some ts =>
          have hsl := streamLoop_scale first.length nc s1 s2 (chunkSizeOf cso)
            rest [] [] [] [] rfl
          cases hs1 : streamLoop first.length nc s1 (chunkSizeOf cso) [] [] [] rest with
          | mk cks1 b1 =>
            cases hs2 : streamLoop first.length nc s2 (chunkSizeOf cso) [] [] [] rest with
            | mk cks2 b2 =>
              rw [hs1, hs2] at hsl
              obtain ⟨hm, hb⟩ := hsl
              simp only at hm hb
              subst hb
              cases b1 with
              | true =>
                simp only [stream, hinf, hl, ht, hs1, hs2]
                exact ⟨hm, by trivial⟩
              | false =>
                simp only [stream, hinf, hl, ht, hs1, hs2]
                exact ⟨hm, by trivial⟩

theorem stream_zero_eq_one (records : List (List String)) (scale : Float) :
    stream (some 0) records scale = stream (some 1) records scale := by
  cases records with
  | nil => rfl
  | cons first rest =>
    cases hinf : inferNumChannels first.length with
    | none => simp only [stream, hinf]
    | some nc =>
      cases hl : first.getLast? with
      | none => simp only [stream, hinf, hl]
      | some lastF =>
        cases ht : parseU64 lastF with
        | none => simp only [stream, hinf, hl, ht]
        | some ts =>
          simp only [stream, hinf, hl, ht, chunkSizeOf, streamLoop_zero_one]

end Easy

namespace Easy

/-- C1: for every first record, layout inference maps the field count
through the dual allow-list — a count in 13/25/37 yields columns − 5
channels, a count in 10/22/34 yields columns − 2, and any other count
makes both decoding entry points (and the channel prescan) fail with the
columns-mismatch error before any data record is processed; a successful
batch decode stores exactly the inferred channel count. -/
theorem spec_C1 (first : List String) (rest : List (List String)) (scale : Float) :
    ((first.length = 13 ∨ first.length = 25 ∨ first.length = 37) →
      inferNumChannels first.length = some (first.length - 5)) ∧
    ((first.length = 10 ∨ first.length = 22 ∨ first.length = 34) →
      inferNumChannels first.length = some (first.length - 2)) ∧
    (inferNumChannels first.length = none →
      parse_data (first :: rest) scale = .err columnsMismatchMsg ∧
      stream none (first :: rest) scale = ([], .err columnsMismatchMsg) ∧
      read_easy_file_for_channels (first :: rest) = .err columnsMismatchMsg) ∧
    (∀ n : Nat, n ≠ 13 → n ≠ 25 → n ≠ 37 → n ≠ 10 → n ≠ 22 → n ≠ 34 →
      inferNumChannels n = none) ∧
    (∀ r : ParseResult, parse_data (first :: rest) scale = .ok r →
      inferNumChannels first.length = some r.num_channels) := by
  refine ⟨?_, ?_, ?_, ?_, ?_⟩
  · intro h
    rcases h with h | h | h <;> rw [h] <;> rfl
  · intro h
    rcases h with h | h | h <;> rw [h] <;> simp [inferNumChannels]
  · intro hnone
    refine ⟨?_, ?_, ?_⟩
    · simp only [parse_data, hnone]
    · simp only [stream, hnone]
    · simp only [read_easy_file_for_channels, hnone]
  · intro n h13 h25 h37 h10 h22 h34
    simp only [inferNumChannels]
    rw [if_neg (by omega), if_neg (by omega)]
  · intro r hok
    obtain ⟨f', r', nc, lastF, ts, e, a, m, heq, hinf, _, _, _, hr⟩ :=
      parse_data_ok_inv hok
    injection heq with hf hr'
    subst hf
    rw [hr]
    exact hinf

/-- C1 witness: the mapping at 13 and 10 columns, and the error on the
11-column first record of Scenario C. -/
theorem spec_C1_witness :
    inferNumChannels first13.length = some (first13.length - 5) ∧
    inferNumChannels first10.length = some (first10.length - 2) ∧
    parse_data [first11] 1 = .err columnsMismatchMsg ∧
    inferNumChannels 11 = none :=
  ⟨(spec_C1 first13 [] 1).1 (by decide),
   (spec_C1 first10 [] 1).2.1 (by decide),
   ((spec_C1 first11 [] 1).2.2.1 (by decide)).1,
   (spec_C1 first11 [] 1).2.2.2.1 11 (by decide) (by decide) (by decide)
     (by decide) (by decide) (by decide)⟩

unseal Rat.add Rat.mul Rat.inv Rat.sub in
/-- C2: positional decoding evaluated on the two layout families.  On the
accelerometer family (13 columns) the split is as claimed.  On the
no-accelerometer family (10 columns), the loop body nevertheless takes
fields [8, 10) — the marker and the timestamp — as the accelerometer
slice, and indexing the marker at field 11 is out of range, so both
decoders panic on every data record of a layout their own inference
accepts. -/
theorem spec_C2 :
    decodeRecord 8 1 row13 =
      some ([10, 20, 30, 40, 50, 60, 70, 80], [1, 2, 3], 5) ∧
    ((row10.drop 8).take 3) = ["9", "1609459201000"] ∧
    parse_data [first10, row10] 1 = .fatal ∧
    stream (some 1) [first10, row10] 1 = ([], .fatal) := by
  exact ⟨by decide, by decide, by decide, by decide⟩

unseal Rat.add Rat.mul Rat.inv Rat.sub in
/-- C5 counterexample: on a source whose second data field row contains
the non-numeric field "abc" in a decoded position, both decoders abort
with a panic (modelled as the fatal outcome), not with an error value
carrying a field index and line number returned to the caller. -/
theorem spec_C5_cex :
    parse_data [first13, badRow13] 1 = .fatal ∧
    stream (some 1) [first13, badRow13] 1 = ([], .fatal) := by
  exact ⟨by decide, by decide⟩

/-- C6: with zero records the first-record unwrap panics in parse_data,
stream and the channel prescan; no error value (and in particular no
EmptySource error) is returned to the immediate caller. -/
theorem spec_C6 :
    parse_data ([] : List (List String)) 1 = .fatal ∧
    stream none ([] : List (List String)) 1 = ([], .fatal) ∧
    read_easy_file_for_channels ([] : List (List String)) = .fatal := by
  exact ⟨rfl, rfl, rfl⟩

end Easy

namespace Easy

theorem chunkify_mem_sizes {cs : Nat} (e a : List (List Float)) (m : List Float) :
    a.length = e.length → m.length = e.length →
    ∀ c ∈ chunkify cs e a m,
      c.acc.length = c.eeg.length ∧ c.markers.length = c.eeg.length ∧
      c.eeg.length ≤ max cs 1 := by
  induction e, a, m using chunkify.induct cs with
  | case1 a m => intro _ _; simp [chunkify]
  | case2 x xs a m ih =>
    intro hal hml c hc
    rw [chunkify] at hc
    rcases List.mem_cons.mp hc with hh | hh
    · subst hh
      refine ⟨?_, ?_, ?_⟩
      · simp only [List.length_take, List.length_cons, hal]
      · simp only [List.length_take, List.length_cons, hml]
      · simp only [List.length_take, List.length_cons]
        omega
    · exact ih (by simp only [List.length_drop, hal]) (by simp only [List.length_drop, hml]) c hh

/-- C3: for any chunk size at least 1 and any successful streaming run,
the consumer is called exactly ceil(data records / chunk size) times (zero
times for zero data records), every call but possibly the last carries
exactly chunk_size rows, the last call carries between 1 and chunk_size
rows, and the calls enumerate the decoded rows strictly in file order. -/
theorem spec_C3 (cs : Nat) (first : List String) (rest : List (List String))
    (scale : Float) (chunks : List Chunk) (d : Option String)
    (hcs : 1 ≤ cs)
    (hrun : stream (some cs) (first :: rest) scale = (chunks, .ok d)) :
    chunks.length = (rest.length + cs - 1) / cs ∧
    (rest.length = 0 → chunks = []) ∧
    (∀ c ∈ chunks.dropLast,
      c.eeg.length = cs ∧ c.acc.length = cs ∧ c.markers.length = cs) ∧
    (∀ c, chunks.getLast? = some c →
      1 ≤ c.markers.length ∧ c.markers.length ≤ cs) ∧
    (∃ nc e a m,
      inferNumChannels first.length = some nc ∧
      decodeRows first.length nc scale rest = some (e, a, m) ∧
      (chunks.map Chunk.eeg).flatten = e ∧
      (chunks.map Chunk.acc).flatten = a ∧
      (chunks.map Chunk.markers).flatten = m) := by
  obtain ⟨f', r', nc, lastF, ts, e, a, m, heq, hinf, hlast, hts, hrows, hd, hcks⟩ :=
    stream_ok_inv hrun
  injection heq with hf hr
  subst hf
  subst hr
  obtain ⟨u1, u2, u3, u4, u5⟩ := decodeRows_uniform hinf hrows
  have hmax : max cs 1 = cs := Nat.max_eq_left hcs
  have hcs' : chunkSizeOf (some cs) = cs := rfl
  rw [hcs'] at hcks
  refine ⟨?_, ?_, ?_, ?_, nc, e, a, m, hinf, hrows, ?_, ?_, ?_⟩
  · rw [hcks, chunkify_length, hmax, u3]
  · intro h0
    have he : e = [] := List.eq_nil_of_length_eq_zero (by rw [u3, h0])
    rw [hcks, he, chunkify_nil]
  · intro c hc
    rw [hcks] at hc
    obtain ⟨s1, s2, s3⟩ := chunkify_dropLast_full e a m u4 u5 c hc
    rw [hmax] at s1 s2 s3
    exact ⟨s1, s2, s3⟩
  · intro c hlc
    have hcm : c ∈ chunks := by
      obtain ⟨hne, hcl⟩ := List.mem_getLast?_eq_getLast (l := chunks) (x := c) hlc
      rw [hcl]
      exact List.getLast_mem hne
    rw [hcks] at hcm
    obtain ⟨q1, q2, q3⟩ := chunkify_mem_sizes e a m u4 u5 c hcm
    have hpos := chunkify_mem_pos e a m c hcm
    rw [hmax] at q3
    constructor
    · omega
    · omega
  · rw [hcks]
    exact chunkify_flatten_eeg e a m
  · rw [hcks]
    exact chunkify_flatten_acc e a m u4
  · rw [hcks]
    exact chunkify_flatten_markers e a m u5

end Easy

namespace Easy

unseal Rat.add Rat.mul Rat.inv Rat.sub in
/-- C3 witness: streaming the one-data-record source [first13, row13]
with chunk size 2 makes exactly one consumer call carrying one row. -/
theorem spec_C3_witness :
    [chunkW].length = (([row13] : List (List String)).length + 2 - 1) / 2 ∧
    (([row13] : List (List String)).length = 0 → [chunkW] = []) ∧
    (∀ c ∈ [chunkW].dropLast,
      c.eeg.length = 2 ∧ c.acc.length = 2 ∧ c.markers.length = 2) ∧
    (∀ c, [chunkW].getLast? = some c →
      1 ≤ c.markers.length ∧ c.markers.length ≤ 2) ∧
    (∃ nc e a m,
      inferNumChannels first13.length = some nc ∧
      decodeRows first13.length nc 1 [row13] = some (e, a, m) ∧
      ([chunkW].map Chunk.eeg).flatten = e ∧
      ([chunkW].map Chunk.acc).flatten = a ∧
      ([chunkW].map Chunk.markers).flatten = m) :=
  spec_C3 2 first13 [row13] 1 [chunkW] (some "2021-01-01 00:00:00")
    (by decide) (by decide)

/-- C4: for any chunk size at least 1, concatenating the rows of all
chunks the streaming decoder delivers, in delivery order, yields exactly
the EEG matrix, accelerometer matrix and marker sequence of the batch
decoder on the same source and scale, and the streaming run stores the
same start date. -/
theorem spec_C4 (cs : Nat) (records : List (List String)) (scale : Float)
    (r : ParseResult) (hcs : 1 ≤ cs)
    (hok : parse_data records scale = .ok r) :
    ((stream (some cs) records scale).1.map Chunk.eeg).flatten = r.np_eeg ∧
    ((stream (some cs) records scale).1.map Chunk.acc).flatten = r.np_acc ∧
    ((stream (some cs) records scale).1.map Chunk.markers).flatten = r.np_markers ∧
    (stream (some cs) records scale).2 = .ok r.eegstartdate := by
  obtain ⟨first, rest, nc, lastF, ts, e, a, m, heq, hinf, hlast, hts, hrows, hr⟩ :=
    parse_data_ok_inv hok
  subst heq
  obtain ⟨u1, u2, u3, u4, u5⟩ := decodeRows_uniform hinf hrows
  have hs := stream_eq_ok (some cs) hinf hlast hts hrows
  rw [hr, hs]
  exact ⟨chunkify_flatten_eeg e a m, chunkify_flatten_acc e a m u4,
    chunkify_flatten_markers e a m u5, rfl⟩

unseal Rat.add Rat.mul Rat.inv Rat.sub in
/-- C4 witness: batch and chunk-size-2 streaming agree on the source
[first13, row13] at scale 1. -/
theorem spec_C4_witness :
    ((stream (some 2) [first13, row13] 1).1.map Chunk.eeg).flatten = resultW.np_eeg ∧
    ((stream (some 2) [first13, row13] 1).1.map Chunk.acc).flatten = resultW.np_acc ∧
    ((stream (some 2) [first13, row13] 1).1.map Chunk.markers).flatten = resultW.np_markers ∧
    (stream (some 2) [first13, row13] 1).2 = .ok resultW.eegstartdate :=
  spec_C4 2 [first13, row13] 1 resultW (by decide) (by decide)

/-- C5 as amended: a data record with a field that fails float parsing in
any decoded position — an EEG position below channel_count, an
accelerometer position in [channel_count, channel_count+3), or the marker
at channel_count+3 — makes the batch decoder and the streaming decoder
abort with a panic: no error value carrying a field index or line number
reaches the caller, and the panic preserves no partial decoded result. -/
theorem spec_C5 (first row : List String) (pre rest : List (List String))
    (s0 : String) (scale : Float) (nc i : Nat)
    (pe pa : List (List Float)) (pm : List Float) (cso : Option Nat)
    (hinf : inferNumChannels first.length = some nc)
    (hpre : decodeRows first.length nc scale pre = some (pe, pa, pm))
    (hlen : row.length = first.length)
    (hget : row.get? i = some s0)
    (hi : i < nc + 4)
    (hbad : parseFloat s0 = none) :
    parse_data (first :: (pre ++ row :: rest)) scale = .fatal ∧
    (stream cso (first :: (pre ++ row :: rest)) scale).2 = .fatal := by
  have hrec : decodeRecord nc scale row = none :=
    decodeRecord_none_of_badField hi hget hbad
  have hone : decodeOne first.length nc scale row = none := by
    rw [decodeOne_of hlen, hrec]
  have hl : decodeRows first.length nc scale (row :: rest) = none := by
    simp only [decodeRows, hone]
  have hall : decodeRows first.length nc scale (pre ++ row :: rest) = none :=
    decodeRows_append_none hpre hl
  exact ⟨parse_data_fatal hinf hall, stream_fatal hinf hall⟩

unseal Rat.add Rat.mul Rat.inv Rat.sub in
/-- C5 witness: a bad EEG field (index 0, after one good record), a bad
accelerometer axis (index 9) and a bad marker (index 11) each abort both
decoders. -/
theorem spec_C5_witness :
    (parse_data (first13 :: ([row13] ++ badRow13 :: [])) 1 = .fatal ∧
      (stream (some 1) (first13 :: ([row13] ++ badRow13 :: [])) 1).2 = .fatal) ∧
    (parse_data (first13 :: ([] ++ badAccRow13 :: [])) 1 = .fatal ∧
      (stream (some 1) (first13 :: ([] ++ badAccRow13 :: [])) 1).2 = .fatal) ∧
    (parse_data (first13 :: ([] ++ badMarkerRow13 :: [])) 1 = .fatal ∧
      (stream (some 1) (first13 :: ([] ++ badMarkerRow13 :: [])) 1).2 = .fatal) :=
  ⟨spec_C5 first13 badRow13 [row13] [] "abc" 1 8 0
    [[10, 20, 30, 40, 50, 60, 70, 80]] [[1, 2, 3]] [5] (some 1)
    (by decide) (by decide) (by decide) (by decide) (by decide) (by decide),
   spec_C5 first13 badAccRow13 [] [] "x" 1 8 9 [] [] [] (some 1)
    (by decide) (by decide) (by decide) (by decide) (by decide) (by decide),
   spec_C5 first13 badMarkerRow13 [] [] "x" 1 8 11 [] [] [] (some 1)
    (by decide) (by decide) (by decide) (by decide) (by decide) (by decide)⟩

end Easy

namespace Easy

/-- C7: an unspecified chunk_size means 1000; chunk_size 0 behaves
exactly as chunk_size 1 (a flush after every record), and in particular a
successful chunk_size-0 run over a source with at least one data record
always flushes at least one chunk. -/
theorem spec_C7 :
    (∀ (records : List (List String)) (scale : Float),
      stream none records scale = stream (some 1000) records scale) ∧
    (∀ (records : List (List String)) (scale : Float),
      stream (some 0) records scale = stream (some 1) records scale) ∧
    (∀ (first r0 : List String) (rest : List (List String)) (scale : Float)
      (d : Option String),
      (stream (some 0) (first :: r0 :: rest) scale).2 = .ok d →
      (stream (some 0) (first :: r0 :: rest) scale).1 ≠ []) := by
  refine ⟨fun records scale => rfl,
    fun records scale => stream_zero_eq_one records scale, ?_⟩
  intro first r0 rest scale d hok
  have hpair : stream (some 0) (first :: r0 :: rest) scale =
      ((stream (some 0) (first :: r0 :: rest) scale).1, .ok d) := by
    rw [← hok]
  obtain ⟨f', r', nc, lastF, ts, e, a, m, heq, hinf, hlast, hts, hrows, hd, hcks⟩ :=
    stream_ok_inv hpair
  injection heq with hf hr
  subst hf
  subst hr
  obtain ⟨u1, u2, u3, u4, u5⟩ := decodeRows_uniform hinf hrows
  have hne : e ≠ [] := by
    intro hcon
    rw [hcon] at u3
    simp at u3
  intro hcon
  rw [hcon] at hcks
  exact hne (chunkify_eq_nil_iff.mp hcks.symm)

unseal Rat.add Rat.mul Rat.inv Rat.sub in
/-- C7 witness: the default equals chunk size 1000, chunk size 0 equals
chunk size 1, and a chunk-size-0 run over one data record flushes. -/
theorem spec_C7_witness :
    stream none [first13, row13] 1 = stream (some 1000) [first13, row13] 1 ∧
    stream (some 0) [first13, row13] 1 = stream (some 1) [first13, row13] 1 ∧
    (stream (some 0) (first13 :: row13 :: []) 1).1 ≠ [] :=
  ⟨spec_C7.1 [first13, row13] 1, spec_C7.2.1 [first13, row13] 1,
   spec_C7.2.2 first13 row13 [] 1 (some "2021-01-01 00:00:00") (by decide)⟩

unseal Rat.add Rat.mul Rat.inv Rat.sub in
/-- C8: the start date of every successful batch decode is derived from
the last field of the first record, parsed as a 64-bit count of
milliseconds, truncated to whole seconds, mapped through chrono's
calendar conversion and formatted; an unmappable epoch value leaves the
date absent while the decode still succeeds; first record first13
(timestamp 1609459200000) yields 2021-01-01 00:00:00 and the far
timestamp of first13Far yields an absent date with a successful decode. -/
theorem spec_C8 :
    (∀ (records : List (List String)) (scale : Float) (r : ParseResult),
      parse_data records scale = .ok r →
      ∃ first rest lastF ts,
        records = first :: rest ∧
        first.getLast? = some lastF ∧
        parseU64 lastF = some ts ∧
        r.eegstartdate = (from_timestamp (toI64 (ts / 1000))).map format_datetime) ∧
    (∀ (first : List String) (rest : List (List String)) (scale : Float)
      (nc ts : Nat) (lastF : String) (e a : List (List Float)) (m : List Float),
      inferNumChannels first.length = some nc →
      first.getLast? = some lastF →
      parseU64 lastF = some ts →
      from_timestamp (toI64 (ts / 1000)) = none →
      decodeRows first.length nc scale rest = some (e, a, m) →
      ∃ r : ParseResult, parse_data (first :: rest) scale = .ok r ∧
        r.eegstartdate = none) ∧
    parse_data [first13] 1 = .ok ⟨some "2021-01-01 00:00:00", 8, [], [], []⟩ ∧
    parse_data [first13Far] 1 = .ok ⟨none, 8, [], [], []⟩ := by
  refine ⟨?_, ?_, by decide, by decide⟩
  · intro records scale r hok
    obtain ⟨first, rest, nc, lastF, ts, e, a, m, heq, hinf, hlast, hts, hrows, hr⟩ :=
      parse_data_ok_inv hok
    exact ⟨first, rest, lastF, ts, heq, hlast, hts, by rw [hr]⟩
  · intro first rest scale nc ts lastF e a m hinf hlast hts hnone hrows
    refine ⟨_, parse_data_eq_ok hinf hlast hts hrows, ?_⟩
    simp only [hnone, Option.map_none']

/-- C8 witness: the conclusion of the absent-date clause at the concrete
far-future source. -/
theorem spec_C8_witness :
    ∃ r : ParseResult, parse_data (first13Far :: []) 1 = .ok r ∧
      r.eegstartdate = none :=
  spec_C8.2.1 first13Far [] 1 8 9000000000000000000 "9000000000000000000" [] [] []
    (by decide) (by decide) (by decide) (by decide) (by decide)

unseal Rat.add Rat.mul Rat.inv Rat.sub in
/-- C9 counterexample: with the contract-violating chunk_size = 0, a
delivered chunk has one row, which exceeds the configured chunk size 0 —
so the invariant "length at most the configured chunk size" fails as
stated. -/
theorem spec_C9_cex :
    ¬ chunkInvariant 0 ((stream (some 0) [first13, row13] 1).1) := by
  decide

/-- C9 as amended: in every invocation of the streaming consumer the
three delivered sequences have one same length, and that length is at
most max(configured chunk size, 1) — equivalently, at most the configured
chunk size whenever it is at least 1, while the contract-violating
chunk_size = 0 flushes single-row chunks. -/
theorem spec_C9 (chunk_size : Option Nat) (records : List (List String))
    (scale : Float) :
    chunkInvariant (max (chunkSizeOf chunk_size) 1)
      ((stream chunk_size records scale).1) := by
  cases records with
  | nil => intro c hc; simp [stream] at hc
  | cons first rest =>
    cases hinf : inferNumChannels first.length with
    | none => intro c hc; simp [stream, hinf] at hc
    | some nc =>
      cases hl : first.getLast? with
      | none => intro c hc; simp [stream, hinf, hl] at hc
      | some lastF =>
        cases ht : parseU64 lastF with
        | none => intro c hc; simp [stream, hinf, hl, ht] at hc
        | some ts =>
          have hsz := streamLoop_sizes first.length nc scale (chunkSizeOf chunk_size)
            rest [] [] [] rfl rfl
            (by simp only [List.length_nil]; omega)
          cases hsl : streamLoop first.length nc scale (chunkSizeOf chunk_size)
              [] [] [] rest with
          | mk cks b =>
            rw [hsl] at hsz
            simp only at hsz
            cases b with
            | true =>
              intro c hc
              simp only [stream, hinf, hl, ht, hsl] at hc
              exact hsz c hc
            | false =>
              intro c hc
              simp only [stream, hinf, hl, ht, hsl] at hc
              exact hsz c hc

unseal Rat.add Rat.mul Rat.inv Rat.sub in
/-- C9 witness: the amended invariant applied at a concrete run. -/
theorem spec_C9_witness :
    chunkInvariant (max (chunkSizeOf (some 2)) 1)
      ((stream (some 2) [first13, row13] 1).1) :=
  spec_C9 (some 2) [first13, row13] 1

/-- C10: the scale divides only the EEG samples — for any two non-zero
scales the streaming decoder delivers identical accelerometer rows and
marker values (and identical outcomes), the batch decoder stores
identical accelerometer and marker matrices, and the stored values are
the raw parsed fields, never divided by the scale. -/
theorem spec_C10 (cso : Option Nat) (records : List (List String))
    (s1 s2 : Float) (hs1 : s1 ≠ 0) (hs2 : s2 ≠ 0) :
    ((stream cso records s1).1.map fun c => (c.acc, c.markers)) =
      ((stream cso records s2).1.map fun c => (c.acc, c.markers)) ∧
    (stream cso records s1).2 = (stream cso records s2).2 ∧
    (∀ r1 : ParseResult, parse_data records s1 = .ok r1 →
      ∃ r2 : ParseResult, parse_data records s2 = .ok r2 ∧
        r1.np_acc = r2.np_acc ∧ r1.np_markers = r2.np_markers ∧
        r1.eegstartdate = r2.eegstartdate ∧ r1.num_channels = r2.num_channels) ∧
    (∀ (nc : Nat) (scale : Float) (r : List String) (e0 a0 : List Float)
      (m0 : Float),
      decodeRecord nc scale r = some (e0, a0, m0) →
      collectParsed parseFloat ((r.drop nc).take 3) = some a0 ∧
      ∃ ms, r.get? (nc + 3) = some ms ∧ parseFloat ms = some m0) := by
  refine ⟨stream_scale.1, stream_scale.2, ?_, ?_⟩
  · intro r1 hok
    obtain ⟨first, rest, nc, lastF, ts, e, a, m, heq, hinf, hlast, hts, hrows, hr⟩ :=
      parse_data_ok_inv hok
    subst heq
    have hsc := decodeRows_scale first.length nc s1 s2 rest
    rw [hrows] at hsc
    obtain ⟨y2, hy2, hyp⟩ := Option.map_eq_some'.mp hsc.symm
    obtain ⟨e2, a2, m2⟩ := y2
    simp only [Prod.mk.injEq] at hyp
    obtain ⟨hya, hym⟩ := hyp
    subst hya
    subst hym
    refine ⟨_, parse_data_eq_ok hinf hlast hts hy2, ?_, ?_, ?_, ?_⟩ <;> rw [hr]
  · intro nc scale r e0 a0 m0 hrec
    obtain ⟨eegRaw, accV, ms, h1, he, h2, ha, h3, h4⟩ := decodeRecord_inv hrec
    refine ⟨by rw [ha]; exact h2, ms, h3, h4⟩

unseal Rat.add Rat.mul Rat.inv Rat.sub in
/-- C10 witness: scale independence of accelerometer and marker data at
scales 1 and 2 over a concrete source. -/
theorem spec_C10_witness :
    ((stream (some 1) [first13, row13] 1).1.map fun c => (c.acc, c.markers)) =
      ((stream (some 1) [first13, row13] 2).1.map fun c => (c.acc, c.markers)) ∧
    (stream (some 1) [first13, row13] 1).2 = (stream (some 1) [first13, row13] 2).2 ∧
    (∀ r1 : ParseResult, parse_data [first13, row13] 1 = .ok r1 →
      ∃ r2 : ParseResult, parse_data [first13, row13] 2 = .ok r2 ∧
        r1.np_acc = r2.np_acc ∧ r1.np_markers = r2.np_markers ∧
        r1.eegstartdate = r2.eegstartdate ∧ r1.num_channels = r2.num_channels) ∧
    (∀ (nc : Nat) (scale : Float) (r : List String) (e0 a0 : List Float)
      (m0 : Float),
      decodeRecord nc scale r = some (e0, a0, m0) →
      collectParsed parseFloat ((r.drop nc).take 3) = some a0 ∧
      ∃ ms, r.get? (nc + 3) = some ms ∧ parseFloat ms = some m0) :=
  spec_C10 (some 1) [first13, row13] 1 2 (by decide) (by decide)

end Easy
